import Mathlib

/-!
Verification of the ofsf-server filesystem adapter (src/fs_adapter.py).

Strings are modelled as lists of characters; paths on disk are modelled as
lists of path components.  Fallible operations return `Except Unit` where the
Python code raises, and stateful operations are explicit functions on an
`FSState` record.
-/

namespace OFSF

/-- Characters stripped by Python `str.strip()` (the ASCII whitespace set). -/
def isPyWS (c : Char) : Bool :=
  c = ' ' || c = '\t' || c = '\n' || c = '\r' || c = '\x0b' || c = '\x0c'

/-- Python `str.strip()`: drop leading and trailing whitespace. -/
def pyStrip (s : List Char) : List Char :=
  ((s.dropWhile isPyWS).reverse.dropWhile isPyWS).reverse

/-- Python `value.replace("\\", "/")`: normalize backslashes to slashes. -/
def backslashToSlash (s : List Char) : List Char :=
  s.map (fun c => if c = '\\' then '/' else c)

/-- Split a character list at every '/' (the component split performed by
`PurePosixPath` before empty and dot parts are discarded). -/
def splitSlash : List Char → List (List Char)
  | [] => [[]]
  | c :: r =>
    if c = '/' then [] :: splitSlash r
    else
      match splitSlash r with
      | [] => [[c]]
      | p :: ps => (c :: p) :: ps

/-- Path components of a string: slash-separated pieces with empty and "."
pieces dropped, exactly the parts the sanitizer loop keeps or rejects. -/
def pathParts (s : List Char) : List (List Char) :=
  (splitSlash s).filter (fun p => decide (p ≠ [] ∧ p ≠ ['.']))

/-- Join path components back with '/' separators (`"/".join(components)`). -/
def joinSlash : List (List Char) → List Char
  | [] => []
  | [p] => p
  | p :: q :: ps => p ++ '/' :: joinSlash (q :: ps)

/-- The sanitizer's normalization prefix: backslashes become slashes, then
surrounding whitespace and leading '/' characters are stripped. -/
def strippedInput (value : List Char) : List Char :=
  (pyStrip (backslashToSlash value)).dropWhile (fun c => c = '/')

/-- `FSAdapter._sanitize_relative_path_str` (fs_adapter.py lines 72-94):
empty input is returned as the root; backslashes become slashes, surrounding
whitespace and leading slashes are stripped; "" and "." denote the root;
a ".." component raises `ValueError` (modelled as `Except.error`); surviving
components are rejoined with "/". -/
def sanitize_relative_path_str (value : List Char) : Except Unit (List Char) :=
  if value = [] then .ok []
  else if strippedInput value = [] ∨ strippedInput value = ['.'] then .ok []
  else if ['.', '.'] ∈ pathParts (strippedInput value) then .error ()
  else .ok (joinSlash (pathParts (strippedInput value)))

/-- The path components of a raw input string, under the same backslash and
whitespace normalization the sanitizer itself applies. -/
def inputComponents (value : List Char) : List (List Char) :=
  pathParts (pyStrip (backslashToSlash value))

theorem splitSlash_ne_nil (s : List Char) : splitSlash s ≠ [] := by
  induction s with
  | nil => simp [splitSlash]
  | cons c r ih =>
    simp only [splitSlash]
    split
    · simp
    · cases h : splitSlash r with
      | nil => simp
      | cons p ps => simp

theorem no_slash_of_mem_splitSlash (s : List Char) :
    ∀ p ∈ splitSlash s, '/' ∉ p := by
  induction s with
  | nil =>
    intro p hp
    simp [splitSlash] at hp
    simp [hp]
  | cons c r ih =>
    intro p hp
    simp only [splitSlash] at hp
    by_cases hc : c = '/'
    · simp [hc] at hp
      rcases hp with h | h
      · simp [h]
      · exact ih p h
    · rcases hsp : splitSlash r with _ | ⟨q, qs⟩
      · exact absurd hsp (splitSlash_ne_nil r)
      · rw [if_neg hc, hsp] at hp
        rcases List.mem_cons.mp hp with h | h
        · subst h
          intro hmem
          rcases List.mem_cons.mp hmem with h1 | h1
          · exact hc h1.symm
          · exact ih q (by rw [hsp]; exact List.mem_cons_self q qs) h1
        · exact ih p (by rw [hsp]; exact List.mem_cons_of_mem q h)

theorem pathParts_cons_slash (r : List Char) :
    pathParts ('/' :: r) = pathParts r := by
  simp [pathParts, splitSlash]

theorem pathParts_dropWhile_slash (s : List Char) :
    pathParts (s.dropWhile (fun c => c = '/')) = pathParts s := by
  induction s with
  | nil => rfl
  | cons c r ih =>
    by_cases hc : c = '/'
    · subst hc
      rw [List.dropWhile_cons_of_pos (by simp), ih, pathParts_cons_slash]
    · rw [List.dropWhile_cons_of_neg (by simp [hc])]

theorem pathParts_strippedInput (value : List Char) :
    pathParts (strippedInput value) = inputComponents value := by
  unfold strippedInput inputComponents
  exact pathParts_dropWhile_slash _

theorem splitSlash_no_slash (p : List Char) (h : '/' ∉ p) : splitSlash p = [p] := by
  induction p with
  | nil => rfl
  | cons c r ih =>
    have hc : c ≠ '/' := fun hh => h (hh ▸ List.mem_cons_self c r)
    have hr : '/' ∉ r := fun hh => h (List.mem_cons_of_mem c hh)
    simp only [splitSlash, if_neg hc, ih hr]

theorem splitSlash_append_slash (p l : List Char) (h : '/' ∉ p) :
    splitSlash (p ++ '/' :: l) = p :: splitSlash l := by
  induction p with
  | nil => simp [splitSlash]
  | cons c r ih =>
    have hc : c ≠ '/' := fun hh => h (hh ▸ List.mem_cons_self c r)
    have hr : '/' ∉ r := fun hh => h (List.mem_cons_of_mem c hh)
    simp only [List.cons_append, splitSlash, if_neg hc, List.append_eq]
    rw [ih hr]

theorem pathParts_joinSlash (comps : List (List Char))
    (h : ∀ p ∈ comps, p ≠ [] ∧ p ≠ ['.'] ∧ '/' ∉ p) :
    pathParts (joinSlash comps) = comps := by
  induction comps with
  | nil => rfl
  | cons p ps ih =>
    rcases h p (List.mem_cons_self p ps) with ⟨hp1, hp2, hp3⟩
    cases ps with
    | nil =>
      simp only [joinSlash, pathParts, splitSlash_no_slash p hp3]
      simp [hp1, hp2]
    | cons q qs =>
      have ihq := ih (fun x hx => h x (List.mem_cons_of_mem p hx))
      simp only [joinSlash, pathParts, splitSlash_append_slash p _ hp3]
      rw [List.filter_cons_of_pos (by simp [hp1, hp2])]
      simpa only [pathParts] using congrArg (List.cons p) ihq

theorem joinSlash_head_mem (p : List Char) (ps : List (List Char)) (hp : p ≠ []) :
    ∃ c, (joinSlash (p :: ps)).head? = some c ∧ c ∈ p := by
  cases p with
  | nil => exact absurd rfl hp
  | cons c r =>
    cases ps with
    | nil => exact ⟨c, rfl, List.mem_cons_self c r⟩
    | cons q qs => exact ⟨c, rfl, List.mem_cons_self c r⟩

theorem joinSlash_eq_nil_iff (comps : List (List Char))
    (h : ∀ p ∈ comps, p ≠ []) : joinSlash comps = [] ↔ comps = [] := by
  cases comps with
  | nil => simp [joinSlash]
  | cons p ps =>
    have hp := h p (List.mem_cons_self p ps)
    cases ps with
    | nil => simpa [joinSlash] using hp
    | cons q qs =>
      constructor
      · intro hj
        exfalso
        have : (p ++ '/' :: joinSlash (q :: qs)) = [] := hj
        simpa using congrArg List.length this
      · intro hj
        exact absurd hj (by simp)

theorem mem_pathParts (s p : List Char) (h : p ∈ pathParts s) :
    p ≠ [] ∧ p ≠ ['.'] ∧ '/' ∉ p := by
  rcases List.mem_filter.mp h with ⟨hmem, hpred⟩
  have hd := of_decide_eq_true hpred
  exact ⟨hd.1, hd.2, no_slash_of_mem_splitSlash s p hmem⟩

/-- C1. Sanitization and path traversal: an input with a ".." path component
(components taken after the sanitizer's backslash/whitespace normalization)
makes `sanitize_relative_path_str` fail with the traversal error; an input
with no ".." component is accepted, and the output never begins with '/',
has no ".." component, and is empty exactly when the input denotes the root
(no real components survive: empty, ".", or only slash/"." pieces). -/
theorem sanitize_traversal_and_output (value : List Char) :
    (['.', '.'] ∈ inputComponents value →
        sanitize_relative_path_str value = .error ()) ∧
    (['.', '.'] ∉ inputComponents value →
      ∃ r, sanitize_relative_path_str value = .ok r ∧
        r.head? ≠ some '/' ∧
        ['.', '.'] ∉ pathParts r ∧
        (r = [] ↔ inputComponents value = [])) := by
  unfold sanitize_relative_path_str
  by_cases hv : value = []
  · subst hv
    rw [if_pos rfl]
    refine ⟨fun h => absurd h (by decide), fun _ => ⟨[], rfl, by decide, by decide, by decide⟩⟩
  · rw [if_neg hv]
    have hparts := pathParts_strippedInput value
    by_cases hroot : strippedInput value = [] ∨ strippedInput value = ['.']
    · rw [if_pos hroot]
      have hempty : inputComponents value = [] := by
        rw [← hparts]
        rcases hroot with h | h <;> rw [h] <;> rfl
      refine ⟨fun h => absurd h (by simp [hempty]), fun _ => ?_⟩
      exact ⟨[], rfl, by decide, by decide, by simp [hempty]⟩
    · rw [if_neg hroot]
      constructor
      · intro hmem
        rw [if_pos (by rw [hparts]; exact hmem)]
      · intro hmem
        rw [if_neg (by rw [hparts]; exact hmem)]
        have hprops := fun p hp => mem_pathParts (strippedInput value) p hp
        refine ⟨joinSlash (pathParts (strippedInput value)), rfl, ?_, ?_, ?_⟩
        · cases hcomp : pathParts (strippedInput value) with
          | nil => simp [joinSlash]
          | cons p ps =>
            have hp := hprops p (by rw [hcomp]; exact List.mem_cons_self p ps)
            rcases joinSlash_head_mem p ps hp.1 with ⟨c, hc1, hc2⟩
            rw [hc1]
            intro hcontr
            have : c = '/' := by injection hcontr
            exact hp.2.2 (this ▸ hc2)
        · rw [pathParts_joinSlash _ hprops, hparts]
          exact hmem
        · rw [joinSlash_eq_nil_iff _ (fun p hp => (hprops p hp).1), hparts]

/-- Witness for C1 at concrete inputs: "a/../b" has a ".." component and is
rejected; " /a\b/./c " (backslash form, padded) has none and sanitizes to an
output with the guaranteed shape. -/
theorem sanitize_traversal_and_output_witness :
    sanitize_relative_path_str ( "a/../b".data) = .error () ∧
    (∃ r, sanitize_relative_path_str ( " /a\\b/./c ".data) = .ok r ∧
      r.head? ≠ some '/' ∧ ['.', '.'] ∉ pathParts r ∧
      (r = [] ↔ inputComponents ( " /a\\b/./c ".data) = [])) :=
  ⟨(sanitize_traversal_and_output ( "a/../b".data)).1 (by decide),
   (sanitize_traversal_and_output ( " /a\\b/./c ".data)).2 (by decide)⟩

/-- Filesystem paths, modelled as lists of path components. -/
abbrev PathC := List (List Char)

/-- Boolean list-prefix test (the lexical containment check behind
`PurePath.relative_to`, which succeeds exactly when the base path's
components are an initial segment of the target's). -/
def isPrefixB [DecidableEq α] : List α → List α → Bool
  | [], _ => true
  | _ :: _, [] => false
  | a :: as, b :: bs => if a = b then isPrefixB as bs else false

theorem isPrefixB_append [DecidableEq α] (l t : List α) :
    isPrefixB l (l ++ t) = true := by
  induction l with
  | nil => rfl
  | cons a as ih => simp [isPrefixB, ih]

/-- `FSAdapter._normalize_subpath` (fs_adapter.py lines 96-119): sanitize the
client path, re-split it into components, join them onto the user base path,
and verify by `relative_to` that the result stays inside the base; the
`mkdir` side effect on the returned directory is not modelled.  Returns the
target path and the relative path string, or an error where the source
raises `ValueError`. -/
def normalize_subpath (base : PathC) (subpath : List Char) :
    Except Unit (PathC × List Char) :=
  match sanitize_relative_path_str subpath with
  | .error e => .error e
  | .ok rel =>
    if rel = [] then .ok (base, [])
    else
      let parts := pathParts rel
      let target := base ++ parts
      if isPrefixB base target then .ok (target, joinSlash parts)
      else .error ()

/-- C2. Containment of resolved paths: for every path string the sanitizer
accepts, `normalize_subpath` returns a target path obtained by joining the
sanitized components onto the user base, and the base path is an initial
segment of (contains) the target; the containment check therefore never
trips, and by construction of `normalize_subpath` a failed check would
return the traversal error rather than a path. -/
theorem normalize_subpath_inside_base (base : PathC) (subpath rel : List Char)
    (h : sanitize_relative_path_str subpath = .ok rel) :
    ∃ target relpath, normalize_subpath base subpath = .ok (target, relpath) ∧
      target = base ++ pathParts rel ∧ isPrefixB base target = true := by
  unfold normalize_subpath
  rw [h]
  dsimp only
  by_cases hrel : rel = []
  · subst hrel
    refine ⟨base, [], by rw [if_pos rfl], by simp [pathParts, splitSlash], ?_⟩
    have := isPrefixB_append base ([] : PathC)
    simpa using this
  · rw [if_neg hrel]
    rw [if_pos (isPrefixB_append base (pathParts rel))]
    exact ⟨base ++ pathParts rel, joinSlash (pathParts rel), rfl,
      rfl, isPrefixB_append base (pathParts rel)⟩

/-- Witness for C2 at a concrete input: base `files/mist`, subpath "docs/a". -/
theorem normalize_subpath_inside_base_witness :
    ∃ target relpath,
      normalize_subpath [ "files".data, "mist".data] ( "docs/a".data) =
        .ok (target, relpath) ∧
      target = [ "files".data, "mist".data] ++ pathParts ( "docs/a".data) ∧
      isPrefixB [ "files".data, "mist".data] target = true :=
  normalize_subpath_inside_base [ "files".data, "mist".data] ( "docs/a".data)
    ( "docs/a".data) rfl

/-- Split a name at its last '.' character: `some (before, after)` with
`name = before ++ '.' :: after` and no '.' in `after`; `none` when the name
has no dot. -/
def splitAtLastDot : List Char → Option (List Char × List Char)
  | [] => none
  | c :: r =>
    match splitAtLastDot r with
    | some (b, a) => some (c :: b, a)
    | none => if c = '.' then some ([], r) else none

/-- Python `PurePath(name).stem`: the name with its final extension removed;
the dot must be at an interior position (a leading or trailing dot does not
start an extension, matching `0 < i < len(name) - 1` in pathlib). -/
def pyStem (name : List Char) : List Char :=
  match splitAtLastDot name with
  | some (b, a) => if b ≠ [] ∧ a ≠ [] then b else name
  | none => name

/-- One decimal digit character. -/
def decDigit (d : Nat) : Char :=
  if d = 0 then '0' else if d = 1 then '1' else if d = 2 then '2'
  else if d = 3 then '3' else if d = 4 then '4' else if d = 5 then '5'
  else if d = 6 then '6' else if d = 7 then '7' else if d = 8 then '8' else '9'

/-- Fuelled decimal rendering loop (digits accumulated from the right). -/
def toDecCore : Nat → Nat → List Char → List Char
  | 0, _, acc => acc
  | fuel + 1, n, acc =>
    if n / 10 = 0 then decDigit (n % 10) :: acc
    else toDecCore fuel (n / 10) (decDigit (n % 10) :: acc)

/-- Python `str(counter)`: decimal rendering of a natural number. -/
def toDec (n : Nat) : List Char := toDecCore (n + 1) n []

/-- Python `f"{base_name} ({counter})"`, the probe composed by the
`_get_unique_name` loop: the counter is appended after the whole base name,
extension included. -/
def probeName (base_name : List Char) (counter : Nat) : List Char :=
  base_name ++ ' ' :: '(' :: (toDec counter ++ [')'])

/-- The collision test of `_get_unique_name` for files: some existing regular
file has the candidate stem.  The `glob(stem + "*")` prefilter restricts the
scan to names extending the stem, which is represented by the prefix
conjunct; a file's stem is always a prefix of its name, so the filter keeps
every relevant file. -/
def stemTaken (files : List (List Char)) (stem : List Char) : Bool :=
  files.any (fun f => isPrefixB stem f && decide (pyStem f = stem))

/-- The `while True` probing loop of `_get_unique_name` for files
(fs_adapter.py lines 140-151), with explicit fuel: `none` means the loop has
not returned within `fuel` iterations. -/
def unique_name_loop_file (files : List (List Char)) (base_name : List Char) :
    Nat → Nat → Option (List Char)
  | 0, _ => none
  | fuel + 1, counter =>
    let new_name := probeName base_name counter
    if stemTaken files (pyStem new_name) = false then some new_name
    else unique_name_loop_file files base_name fuel (counter + 1)

/-- `FSAdapter._get_unique_name` with `is_folder=False` (fs_adapter.py lines
121-151): return the desired name if no existing file shares its stem,
otherwise probe `name (1)`, `name (2)`, ... for a free stem. -/
def get_unique_name_file (files : List (List Char)) (name : List Char)
    (fuel : Nat) : Option (List Char) :=
  if stemTaken files (pyStem name) = false then some name
  else unique_name_loop_file files name fuel 1

theorem no_dot_splitAtLastDot (l : List Char) (h : '.' ∉ l) :
    splitAtLastDot l = none := by
  induction l with
  | nil => rfl
  | cons c r ih =>
    have hc : c ≠ '.' := fun hh => h (hh ▸ List.mem_cons_self c r)
    have hr : '.' ∉ r := fun hh => h (List.mem_cons_of_mem c hh)
    simp only [splitAtLastDot, ih hr, if_neg hc]

theorem splitAtLastDot_append_no_dot (l₁ l₂ : List Char) (h : '.' ∉ l₂) :
    splitAtLastDot (l₁ ++ l₂) =
      (splitAtLastDot l₁).map (fun ba => (ba.1, ba.2 ++ l₂)) := by
  induction l₁ with
  | nil => simp [no_dot_splitAtLastDot l₂ h, splitAtLastDot]
  | cons c r ih =>
    simp only [List.cons_append, splitAtLastDot, List.append_eq]
    rw [ih]
    cases hr : splitAtLastDot r with
    | some ba => cases ba with | mk b a => simp
    | none =>
      by_cases hc : c = '.'
      · simp [hc]
      · simp [hc]

theorem decDigit_ne_dot (d : Nat) : decDigit d ≠ '.' := by
  unfold decDigit
  repeat' split
  all_goals decide

theorem toDecCore_no_dot (fuel n : Nat) (acc : List Char) (h : '.' ∉ acc) :
    '.' ∉ toDecCore fuel n acc := by
  induction fuel generalizing n acc with
  | zero => exact h
  | succ fuel ih =>
    simp only [toDecCore]
    have hacc : '.' ∉ decDigit (n % 10) :: acc := by
      intro hm
      rcases List.mem_cons.mp hm with h1 | h1
      · exact decDigit_ne_dot (n % 10) h1.symm
      · exact h h1
    split
    · exact hacc
    · exact ih (n / 10) _ hacc

theorem toDec_no_dot (n : Nat) : '.' ∉ toDec n :=
  toDecCore_no_dot (n + 1) n [] (by simp)

theorem pyStem_probe_report_pdf (k : Nat) :
    pyStem (probeName ( "report.pdf".data) k) = "report".data := by
  unfold probeName pyStem
  have hnd : '.' ∉ ' ' :: '(' :: (toDec k ++ [')']) := by
    intro hm
    rcases List.mem_cons.mp hm with h1 | h1
    · exact absurd h1.symm (by decide)
    rcases List.mem_cons.mp h1 with h2 | h2
    · exact absurd h2.symm (by decide)
    rcases List.mem_append.mp h2 with h3 | h3
    · exact toDec_no_dot k h3
    · exact absurd (List.mem_singleton.mp h3) (by decide)
  rw [splitAtLastDot_append_no_dot _ _ hnd]
  have hsplit : splitAtLastDot ( "report.pdf".data) =
      some ( "report".data, "pdf".data) := by decide
  rw [hsplit]
  simp

/-- C3 (code bug). Unique-name resolution for files never terminates on a
stem collision between dotted filenames: with `report.txt` present, resolving
`report.pdf` probes `report.pdf (1)`, `report.pdf (2)`, ..., every one of
which has Python stem "report" (the counter lands after the extension, so the
last dot precedes it), which still collides with `report.txt`; the loop
therefore returns nothing for any amount of fuel, and in particular never
produces the `report (1).pdf` the specification describes. -/
theorem get_unique_name_file_diverges (fuel : Nat) :
    get_unique_name_file [ "report.txt".data] ( "report.pdf".data) fuel = none := by
  unfold get_unique_name_file
  rw [if_neg (by decide)]
  suffices h : ∀ f k, unique_name_loop_file [ "report.txt".data]
      ( "report.pdf".data) f k = none from h fuel 1
  intro f
  induction f with
  | zero => intro k; rfl
  | succ f ih =>
    intro k
    simp only [unique_name_loop_file]
    rw [pyStem_probe_report_pdf k]
    rw [if_neg (by decide)]
    exact ih (k + 1)

/-- Python `str.replace(pat, rep)`: replace every non-overlapping occurrence
of `pat`, scanning left to right.  The adapter only calls it with a nonempty
pattern (the file type string). -/
def replaceAll (pat rep : List Char) : List Char → List Char
  | [] => []
  | c :: rest =>
    if h : pat ≠ [] ∧ isPrefixB pat (c :: rest) = true then
      rep ++ replaceAll pat rep ((c :: rest).drop pat.length)
    else
      c :: replaceAll pat rep rest
termination_by l => l.length
decreasing_by
  · simp only [List.length_drop, List.length_cons]
    have hp : 0 < pat.length := List.length_pos.mpr h.1
    omega
  · simp

theorem replaceAll_nil_bounded (pat : List Char) :
    ∀ n (s : List Char), s.length ≤ n →
      (replaceAll pat [] s).length ≤ s.length := by
  intro n
  induction n with
  | zero =>
    intro s hs
    have : s = [] := List.length_eq_zero.mp (Nat.le_zero.mp hs)
    subst this
    simp [replaceAll]
  | succ n ih =>
    intro s hs
    cases s with
    | nil => simp [replaceAll]
    | cons c rest =>
      simp only [replaceAll]
      split
      · rename_i h
        have hp : 0 < pat.length := List.length_pos.mpr h.1
        have hlen : ((c :: rest).drop pat.length).length ≤ n := by
          simp only [List.length_drop, List.length_cons]
          have : rest.length ≤ n := Nat.le_of_succ_le_succ (by simpa using hs)
          omega
        have := ih _ hlen
        simp only [List.nil_append]
        calc (replaceAll pat [] ((c :: rest).drop pat.length)).length
            ≤ ((c :: rest).drop pat.length).length := this
          _ ≤ (c :: rest).length := by simp [List.length_drop]
      · have hrest : rest.length ≤ n := Nat.le_of_succ_le_succ (by simpa using hs)
        simpa using Nat.succ_le_succ (ih rest hrest)

theorem replaceAll_nil_le (pat s : List Char) :
    (replaceAll pat [] s).length ≤ s.length :=
  replaceAll_nil_bounded pat s.length s (Nat.le_refl _)

theorem replaceAll_one_bounded (pat : List Char) (hp : pat ≠ []) :
    ∀ n (x y : List Char), (x ++ pat ++ y).length ≤ n →
      (replaceAll pat [] (x ++ pat ++ y)).length ≤ x.length + y.length := by
  intro n
  induction n with
  | zero =>
    intro x y hs
    exfalso
    have := List.length_pos.mpr hp
    simp only [List.length_append, Nat.le_zero] at hs
    omega
  | succ n ih =>
    intro x y hs
    cases x with
    | nil =>
      cases pat with
      | nil => exact absurd rfl hp
      | cons c pat' =>
        have hcond : (c :: pat' : List Char) ≠ [] ∧
            isPrefixB (c :: pat') (c :: (pat' ++ y)) = true := by
          refine ⟨by simp, ?_⟩
          have := isPrefixB_append (c :: pat') y
          simpa using this
        simp only [List.nil_append, List.cons_append, replaceAll, dif_pos hcond,
          List.nil_append]
        have hdrop : (c :: (pat' ++ y)).drop (c :: pat').length = y := by
          have := List.drop_left (c :: pat') y
          simpa using this
        rw [hdrop]
        simpa using replaceAll_nil_le (c :: pat') y
    | cons c x' =>
      have hsplit : ((c :: x') ++ pat ++ y) = c :: (x' ++ pat ++ y) := by simp
      rw [hsplit]
      simp only [replaceAll]
      split
      · rename_i h
        have hplen : 0 < pat.length := List.length_pos.mpr hp
        have hd : (c :: (x' ++ pat ++ y)).drop pat.length =
            ((c :: x' ++ pat).drop pat.length) ++ y := by
          have h1 : (c :: (x' ++ pat ++ y)) = (c :: x' ++ pat) ++ y := by simp
          rw [h1]
          exact List.drop_append_of_le_length (by simp; omega)
        rw [hd]
        simp only [List.nil_append]
        calc (replaceAll pat [] (((c :: x' ++ pat).drop pat.length) ++ y)).length
            ≤ (((c :: x' ++ pat).drop pat.length) ++ y).length :=
              replaceAll_nil_le _ _
          _ ≤ (c :: x').length + y.length := by
              simp [List.length_drop]
              omega
      · have hlen : (x' ++ pat ++ y).length ≤ n := by
          have : (c :: (x' ++ pat ++ y)).length ≤ n + 1 := by rw [← hsplit]; exact hs
          simpa using Nat.le_of_succ_le_succ this
        have := ih x' y hlen
        simp only [List.length_cons]
        omega

theorem replaceAll_two_bounded (pat : List Char) (hp : pat ≠ []) :
    ∀ n (u v : List Char), (u ++ pat ++ v ++ pat).length ≤ n →
      (replaceAll pat [] (u ++ pat ++ v ++ pat)).length ≤ u.length + v.length := by
  intro n
  induction n with
  | zero =>
    intro u v hs
    exfalso
    have := List.length_pos.mpr hp
    simp only [List.length_append, Nat.le_zero] at hs
    omega
  | succ n ih =>
    intro u v hs
    cases u with
    | nil =>
      cases pat with
      | nil => exact absurd rfl hp
      | cons c pat' =>
        have hshape : (([] : List Char) ++ (c :: pat') ++ v ++ (c :: pat')) =
            c :: (pat' ++ (v ++ (c :: pat'))) := by simp
        rw [hshape]
        have hcond : (c :: pat' : List Char) ≠ [] ∧
            isPrefixB (c :: pat') (c :: (pat' ++ (v ++ (c :: pat')))) = true := by
          refine ⟨by simp, ?_⟩
          have := isPrefixB_append (c :: pat') (v ++ (c :: pat'))
          simpa using this
        simp only [replaceAll, dif_pos hcond, List.nil_append]
        have hdrop : (c :: (pat' ++ (v ++ (c :: pat')))).drop (c :: pat').length =
            v ++ (c :: pat') := by
          have := List.drop_left (c :: pat') (v ++ (c :: pat'))
          simpa using this
        rw [hdrop]
        have := replaceAll_one_bounded (c :: pat') hp
          (v ++ (c :: pat')).length v [] (by simp)
        simpa using this
    | cons c u' =>
      have hsplit : ((c :: u') ++ pat ++ v ++ pat) = c :: (u' ++ pat ++ v ++ pat) := by
        simp
      rw [hsplit]
      simp only [replaceAll]
      split
      · rename_i h
        have hplen : 0 < pat.length := List.length_pos.mpr hp
        have hd : (c :: (u' ++ pat ++ v ++ pat)).drop pat.length =
            ((c :: u' ++ pat).drop pat.length) ++ (v ++ pat) := by
          have h1 : (c :: (u' ++ pat ++ v ++ pat)) = (c :: u' ++ pat) ++ (v ++ pat) := by
            simp
          rw [h1]
          exact List.drop_append_of_le_length (by simp; omega)
        rw [hd]
        simp only [List.nil_append]
        have hw : (((c :: u' ++ pat).drop pat.length) ++ (v ++ pat)) =
            (((c :: u' ++ pat).drop pat.length) ++ v) ++ pat ++ [] := by simp
        rw [hw]
        have := replaceAll_one_bounded pat hp
          ((((c :: u' ++ pat).drop pat.length) ++ v) ++ pat ++ []).length
          (((c :: u' ++ pat).drop pat.length) ++ v) [] (Nat.le_refl _)
        calc (replaceAll pat [] ((((c :: u' ++ pat).drop pat.length) ++ v) ++ pat ++ [])).length
            ≤ (((c :: u' ++ pat).drop pat.length) ++ v).length + ([] : List Char).length :=
              this
          _ ≤ (c :: u').length + v.length := by
              simp [List.length_drop]
              omega
      · have hlen : (u' ++ pat ++ v ++ pat).length ≤ n := by
          have : (c :: (u' ++ pat ++ v ++ pat)).length ≤ n + 1 := by
            rw [← hsplit]; exact hs
          simpa using Nat.le_of_succ_le_succ this
        have := ih u' v hlen
        simp only [List.length_cons]
        omega

theorem splitAtLastDot_append_dot (l : List Char) :
    splitAtLastDot (l ++ ['.']) = some (l, []) := by
  induction l with
  | nil => rfl
  | cons c r ih =>
    simp only [List.cons_append, splitAtLastDot, List.append_eq]
    rw [ih]

theorem pyStem_append_ext (name t : List Char) (hn : name ≠ []) (ht : t ≠ [])
    (hd : '.' ∉ t) : pyStem (name ++ '.' :: t) = name := by
  have hshape : name ++ '.' :: t = (name ++ ['.']) ++ t := by simp
  unfold pyStem
  rw [hshape, splitAtLastDot_append_no_dot (name ++ ['.']) t hd,
    splitAtLastDot_append_dot name]
  simp [hn, ht, hshape]

/-- The filename composed by `FSAdapter._create_file` (fs_adapter.py lines
241-250) and the display name it stores in record field 1: the filename is
`name + file_type`, resolved by `_get_unique_name`; for a nonempty type the
stored name is `unique_filename.replace(file_type, "")`, i.e. every
occurrence of the type string deleted, and for an empty type it is the stem.
Returns `none` when the unique-name loop fails to terminate in `fuel`. -/
def create_file_names (files : List (List Char)) (name file_type : List Char)
    (fuel : Nat) : Option ((List Char) × (List Char)) :=
  let filename := if file_type ≠ [] then name ++ file_type else name
  match get_unique_name_file files filename fuel with
  | none => none
  | some unique_filename =>
    some (unique_filename,
      if file_type ≠ [] then replaceAll file_type [] unique_filename
      else pyStem unique_filename)

/-- C10. For a file created with extension ".t" (a dot followed by a nonempty
dot-free tail) into an empty directory, when the desired name itself contains
the extension text (name = u ++ ext ++ v), the resolved filename is
name ++ ext, and the stored display name — every occurrence of the extension
deleted — differs from the resolved filename with only its final extension
removed (which is the whole name). -/
theorem create_file_display_name_strips_all (u v t : List Char)
    (ht : t ≠ []) (hd : '.' ∉ t) (fuel : Nat) :
    ∃ stored,
      create_file_names [] (u ++ '.' :: t ++ v) ('.' :: t) fuel =
        some (((u ++ '.' :: t ++ v) ++ '.' :: t), stored) ∧
      stored = replaceAll ('.' :: t) [] ((u ++ '.' :: t ++ v) ++ '.' :: t) ∧
      stored ≠ pyStem ((u ++ '.' :: t ++ v) ++ '.' :: t) := by
  have hext : ('.' :: t : List Char) ≠ [] := by simp
  refine ⟨replaceAll ('.' :: t) [] ((u ++ '.' :: t ++ v) ++ '.' :: t), ?_, rfl, ?_⟩
  · rfl
  · have hstem : pyStem ((u ++ '.' :: t ++ v) ++ '.' :: t) = u ++ '.' :: t ++ v := by
      apply pyStem_append_ext _ t (by simp) ht hd
    rw [hstem]
    have hshape : ((u ++ '.' :: t ++ v) ++ '.' :: t) =
        u ++ ('.' :: t) ++ v ++ ('.' :: t) := by simp
    rw [hshape]
    have hb := replaceAll_two_bounded ('.' :: t) hext
      (u ++ ('.' :: t) ++ v ++ ('.' :: t)).length u v (Nat.le_refl _)
    intro heq
    have := congrArg List.length heq
    simp only [List.length_append, List.length_cons] at this hb
    omega

/-- Witness for C10: name "my.txt file" with type ".txt" — the stored display
name deletes both occurrences of ".txt", giving "my file", which differs from
"my.txt file" (the filename with only its final extension removed). -/
theorem create_file_display_name_witness :
    ∃ stored,
      create_file_names [] ( "my".data ++ '.' :: "txt".data ++ " file".data)
          ('.' :: "txt".data) 1 =
        some ((( "my".data ++ '.' :: "txt".data ++ " file".data) ++ '.' :: "txt".data),
          stored) ∧
      stored = replaceAll ('.' :: "txt".data) []
        (( "my".data ++ '.' :: "txt".data ++ " file".data) ++ '.' :: "txt".data) ∧
      stored ≠ pyStem (( "my".data ++ '.' :: "txt".data ++ " file".data) ++
        '.' :: "txt".data) :=
  create_file_display_name_strips_all ( "my".data) ( " file".data) ( "txt".data)
    (by decide) (by decide) 1

/-- JSON-like atomic chunk values.  The adapter treats payload fields as
opaque JSON data; the claims only exercise atoms, so nested containers are
not represented. -/
inductive JVal where
  | vStr (s : List Char)
  | vNum (n : Int)
  | vBool (b : Bool)
  | vNull
deriving DecidableEq

/-- Python `str()` of a chunk value, as `update_chunk` applies it before
sanitizing a parent-path update (`str(new_data)`). -/
def pyStr : JVal → List Char
  | .vStr s => s
  | .vNum n => if n < 0 then '-' :: toDec n.natAbs else toDec n.toNat
  | .vBool b => if b then "True".data else "False".data
  | .vNull => "None".data

/-- The sanitizer applied to a raw JSON value the way `get_ofsf` hands
`chunks[2]` to `_sanitize_relative_path_str` without `str()` conversion:
falsy values take the early-return to ""; truthy non-strings raise
`AttributeError` on `.replace`, modelled as an error. -/
def sanitizeJVal : JVal → Except Unit (List Char)
  | .vStr s => sanitize_relative_path_str s
  | .vNum n => if n = 0 then .ok [] else .error ()
  | .vBool b => if b then .error () else .ok []
  | .vNull => .ok []

/-- The string "folder". -/
def sFolder : List Char := "folder".data

/-- The string "file". -/
def sFile : List Char := "file".data

/-- The folder sentinel ".folder". -/
def sDotFolder : List Char := ".folder".data

/-- One index entry: the JSON object the index stores per uuid
(fs_adapter.py lines 213-219 and 259-264). The `path` and `dir_path`
attributes hold paths as component lists; `none` models a missing or empty
field (files have no `dir_path`). -/
structure IndexEntry where
  etype : List Char
  path : Option PathC
  dir_path : Option PathC
  name : List Char
  parent_path : List Char
deriving DecidableEq

/-- The filesystem and index state one adapter instance sees: the user base
path, the parsed record files keyed by absolute path, the set of existing
directories, and the uuid-keyed index in insertion order. -/
structure FSState where
  base : PathC
  records : List (PathC × List JVal)
  dirs : List PathC
  index : List ((List Char) × IndexEntry)
deriving DecidableEq

/-- Association-list lookup (Python dict access, insertion order kept). -/
def alookup [DecidableEq α] : List (α × β) → α → Option β
  | [], _ => none
  | (k, v) :: r, a => if k = a then some v else alookup r a

/-- Association-list removal (Python `del d[k]`). -/
def aerase [DecidableEq α] : List (α × β) → α → List (α × β)
  | [], _ => []
  | (k', v') :: r, k => if k' = k then r else (k', v') :: aerase r k

/-- Association-list update in place (Python `d[k] = v` on an existing key
keeps its position). -/
def aset [DecidableEq α] : List (α × β) → α → β → List (α × β)
  | [], k, v => [(k, v)]
  | (k', v') :: r, k, v => if k' = k then (k, v) :: r else (k', v') :: aset r k v

/-- Overwrite one record file on disk. -/
def writeRecord (st : FSState) (p : PathC) (l : List JVal) : FSState :=
  { st with records := aset st.records p l }

/-- `FSAdapter.update_chunk` (fs_adapter.py lines 272-330): validate the
uuid and index entry, require the record file to exist, convert the 1-based
index to a 0-based offset (0 passes through unchanged), bounds-check it,
sanitize the value when the offset is the parent-path field 2, and rewrite
the record file.  An entry whose `path` attribute is empty makes
`Path("")` point at the working directory; `open` then raises
`IsADirectoryError`, which the handler turns into `False`, so that case is
modelled directly as a failure. -/
def adjustedIdx (chunk_idx : Int) : Int :=
  if chunk_idx > 0 then chunk_idx - 1 else chunk_idx

def update_chunk (st : FSState) (uuid : List Char) (chunk_idx : Int)
    (new_data : JVal) : Bool × FSState :=
  if uuid = [] then (false, st)
  else if chunk_idx < 0 then (false, st)
  else
    match alookup st.index uuid with
    | none => (false, st)
    | some entry =>
      if entry.etype = sFolder ∨ entry.etype = sFile then
        match entry.path with
        | none => (false, st)
        | some p =>
          match alookup st.records p with
          | none => (false, st)
          | some chunks =>
            if adjustedIdx chunk_idx < 0 ∨
                (chunks.length : Int) ≤ adjustedIdx chunk_idx then (false, st)
            else if adjustedIdx chunk_idx = 2 then
              match sanitize_relative_path_str (pyStr new_data) with
              | .error _ => (false, st)
              | .ok s => (true, writeRecord st p (chunks.set 2 (.vStr s)))
            else
              (true, writeRecord st p
                (chunks.set (adjustedIdx chunk_idx).toNat new_data))
      else (false, st)

/-- C4. Patch offset convention and failure modes: on an existing item whose
14-field record file is present, a positive field index n writes to 0-based
offset n-1 (shown away from the sanitized offset 2, which C5 covers), field
index 0 writes to offset 0, and the call returns failure — not an exception
— when the uuid is unknown, when the record file is missing, or when the
computed offset falls outside the record (n > 14 gives offset at least 14,
past the last valid offset 13). -/
theorem update_chunk_offset_convention (st : FSState) (uuid : List Char)
    (n : Int) (v : JVal) :
    (∀ entry p chunks, uuid ≠ [] →
      alookup st.index uuid = some entry →
      (entry.etype = sFolder ∨ entry.etype = sFile) →
      entry.path = some p →
      alookup st.records p = some chunks →
      chunks.length = 14 →
      ((0 < n → n - 1 < 14 → n - 1 ≠ 2 →
          update_chunk st uuid n v =
            (true, writeRecord st p (chunks.set (n - 1).toNat v))) ∧
       (n = 0 →
          update_chunk st uuid n v =
            (true, writeRecord st p (chunks.set 0 v))) ∧
       (14 < n → update_chunk st uuid n v = (false, st)))) ∧
    (alookup st.index uuid = none → update_chunk st uuid n v = (false, st)) ∧
    (∀ entry p, alookup st.index uuid = some entry →
      (entry.etype = sFolder ∨ entry.etype = sFile) →
      entry.path = some p → alookup st.records p = none →
      update_chunk st uuid n v = (false, st)) := by
  refine ⟨?_, ?_, ?_⟩
  · intro entry p chunks hu hidx htype hpath hrec hlen
    refine ⟨?_, ?_, ?_⟩
    · intro hn hlt hne
      have hadj : adjustedIdx n = n - 1 := by
        unfold adjustedIdx
        rw [if_pos (by omega : n > 0)]
      unfold update_chunk
      rw [if_neg hu, if_neg (by omega : ¬ n < 0), hidx]
      dsimp only
      rw [if_pos htype, hpath]
      dsimp only
      rw [hrec]
      dsimp only
      rw [hlen, hadj]
      rw [if_neg (by push_cast; omega), if_neg hne]
    · intro hn
      subst hn
      have hadj : adjustedIdx 0 = 0 := by
        unfold adjustedIdx
        rw [if_neg (by omega : ¬ (0 : Int) > 0)]
      unfold update_chunk
      rw [if_neg hu, if_neg (by omega : ¬ (0 : Int) < 0), hidx]
      dsimp only
      rw [if_pos htype, hpath]
      dsimp only
      rw [hrec]
      dsimp only
      rw [hlen, hadj]
      rw [if_neg (show ¬ ((0 : Int) < 0 ∨ ((14 : Nat) : Int) ≤ (0 : Int)) by decide),
        if_neg (by omega : ¬ (0 : Int) = 2)]
      rfl
    · intro hn
      have hadj : adjustedIdx n = n - 1 := by
        unfold adjustedIdx
        rw [if_pos (by omega : n > 0)]
      unfold update_chunk
      rw [if_neg hu, if_neg (by omega : ¬ n < 0), hidx]
      dsimp only
      rw [if_pos htype, hpath]
      dsimp only
      rw [hrec]
      dsimp only
      rw [hlen, hadj]
      rw [if_pos (by push_cast; omega)]
  · intro hnone
    unfold update_chunk
    by_cases hu : uuid = []
    · rw [if_pos hu]
    · rw [if_neg hu]
      by_cases hneg : n < 0
      · rw [if_pos hneg]
      · rw [if_neg hneg, hnone]
  · intro entry p hidx htype hpath hrec
    unfold update_chunk
    by_cases hu : uuid = []
    · rw [if_pos hu]
    · rw [if_neg hu]
      by_cases hneg : n < 0
      · rw [if_pos hneg]
      · rw [if_neg hneg, hidx]
        dsimp only
        rw [if_pos htype, hpath]
        dsimp only
        rw [hrec]

/-- A concrete record file path used by the patch and delete witnesses. -/
def pA : PathC := [ "files".data, "mist".data, "a.txt".data]

/-- A concrete 14-field record. -/
def recA : List JVal :=
  [.vStr ( ".txt".data), .vStr ( "a".data), .vStr [], .vStr ( "p3".data),
   .vNull, .vNull, .vNull, .vNull, .vNull, .vNull, .vNull, .vNull, .vNull,
   .vNull]

/-- A concrete file index entry pointing at `pA`. -/
def entryA : IndexEntry :=
  { etype := sFile, path := some pA, dir_path := none,
    name := "a.txt".data, parent_path := [] }

/-- A concrete adapter state with one file item. -/
def stA : FSState :=
  { base := [ "files".data, "mist".data], records := [(pA, recA)],
    dirs := [], index := [( "u1".data, entryA)] }

/-- Witness for C4: on the concrete state, field index 4 writes offset 3,
field index 0 writes offset 0, an unknown uuid fails, and index 20 (offset
19, out of range) fails. -/
theorem update_chunk_offset_convention_witness :
    update_chunk stA ( "u1".data) 4 (.vStr ( "x".data)) =
      (true, writeRecord stA pA (recA.set 3 (.vStr ( "x".data)))) ∧
    update_chunk stA ( "u1".data) 0 (.vStr ( "x".data)) =
      (true, writeRecord stA pA (recA.set 0 (.vStr ( "x".data)))) ∧
    update_chunk stA ( "u2".data) 1 (.vStr ( "x".data)) = (false, stA) ∧
    update_chunk stA ( "u1".data) 20 (.vStr ( "x".data)) = (false, stA) := by
  have h1 := (update_chunk_offset_convention stA ( "u1".data) 4
    (.vStr ( "x".data))).1 entryA pA recA (by decide) rfl (Or.inr rfl) rfl rfl rfl
  have h2 := (update_chunk_offset_convention stA ( "u1".data) 0
    (.vStr ( "x".data))).1 entryA pA recA (by decide) rfl (Or.inr rfl) rfl rfl rfl
  have h3 := (update_chunk_offset_convention stA ( "u2".data) 1
    (.vStr ( "x".data))).2.1 rfl
  have h4 := (update_chunk_offset_convention stA ( "u1".data) 20
    (.vStr ( "x".data))).1 entryA pA recA (by decide) rfl (Or.inr rfl) rfl rfl rfl
  exact ⟨h1.1 (by omega) (by omega) (by omega), h2.2.1 rfl, h3,
    h4.2.2 (by omega)⟩

/-- C5. Patching the parent-path field: field index 3 lands on offset 2, the
new value is passed through the sanitizer (after `str()` conversion), a
sanitization failure fails the whole patch with the state — including the
on-disk record — left unchanged, and a successful sanitization stores the
sanitized string at offset 2. -/
theorem update_chunk_sanitizes_parent (st : FSState) (uuid : List Char)
    (entry : IndexEntry) (p : PathC) (chunks : List JVal) (v : JVal)
    (hu : uuid ≠ [])
    (hidx : alookup st.index uuid = some entry)
    (htype : entry.etype = sFolder ∨ entry.etype = sFile)
    (hpath : entry.path = some p)
    (hrec : alookup st.records p = some chunks)
    (hlen : chunks.length = 14) :
    (sanitize_relative_path_str (pyStr v) = .error () →
        update_chunk st uuid 3 v = (false, st)) ∧
    (∀ s, sanitize_relative_path_str (pyStr v) = .ok s →
        update_chunk st uuid 3 v =
          (true, writeRecord st p (chunks.set 2 (.vStr s)))) := by
  have hpre : ∀ w : JVal, update_chunk st uuid 3 w =
      (match sanitize_relative_path_str (pyStr w) with
       | .error _ => (false, st)
       | .ok s => (true, writeRecord st p (chunks.set 2 (.vStr s)))) := by
    intro w
    have hadj : adjustedIdx 3 = 2 := by decide
    unfold update_chunk
    rw [if_neg hu, if_neg (by omega : ¬ (3 : Int) < 0), hidx]
    dsimp only
    rw [if_pos htype, hpath]
    dsimp only
    rw [hrec]
    dsimp only
    rw [hlen, hadj]
    rw [if_neg (show ¬ ((2 : Int) < 0 ∨ ((14 : Nat) : Int) ≤ (2 : Int)) by decide),
      if_pos rfl]
  constructor
  · intro herr
    rw [hpre v, herr]
  · intro s hok
    rw [hpre v, hok]

/-- Witness for C5: patching field 3 with "../z" fails and leaves the state
unchanged; patching it with "d/e" stores the sanitized value at offset 2. -/
theorem update_chunk_sanitizes_parent_witness :
    update_chunk stA ( "u1".data) 3 (.vStr ( "../z".data)) = (false, stA) ∧
    update_chunk stA ( "u1".data) 3 (.vStr ( "d/e".data)) =
      (true, writeRecord stA pA (recA.set 2 (.vStr ( "d/e".data)))) := by
  constructor
  · exact (update_chunk_sanitizes_parent stA ( "u1".data) entryA pA recA
      (.vStr ( "../z".data)) (by decide) rfl (Or.inr rfl) rfl rfl rfl).1 rfl
  · exact (update_chunk_sanitizes_parent stA ( "u1".data) entryA pA recA
      (.vStr ( "d/e".data)) (by decide) rfl (Or.inr rfl) rfl rfl rfl).2
      ( "d/e".data) rfl

/-- C6. Frame property of patch: no invocation of `update_chunk`, successful
or failed, ever modifies the index document — only the record file is
rewritten — so name or parent-path values changed through patch are never
propagated to the index entry. -/
theorem update_chunk_preserves_index (st : FSState) (uuid : List Char)
    (n : Int) (v : JVal) : ((update_chunk st uuid n v).2).index = st.index := by
  unfold update_chunk writeRecord
  repeat' split
  all_goals rfl

/-- Remove a directory tree: `shutil.rmtree` removes the directory and
everything beneath it, including record files stored inside it. -/
def removeTree (st : FSState) (d : PathC) : FSState :=
  { st with
    records := st.records.filter (fun kv => !(isPrefixB d kv.1)),
    dirs := st.dirs.filter (fun q => !(isPrefixB d q)) }

/-- `FSAdapter.delete_file` (fs_adapter.py lines 332-374).  The result is
what the Python function returns: `some b` for an explicit boolean and
`none` for the implicit `None` that falls out of the bare `except` handler,
which catches any OSError raised while removing storage; the `ioFail` flag
injects such an I/O failure into the storage-removal step. -/
def delete_file (st : FSState) (uuid : List Char) (ioFail : Bool) :
    Option Bool × FSState :=
  if uuid = [] then (some false, st)
  else
    match alookup st.index uuid with
    | none => (some false, st)
    | some entry =>
      if entry.etype = sFile then
        match entry.path with
        | some p =>
          if (alookup st.records p).isSome then
            if ioFail then (none, st)
            else (some true,
              { st with records := aerase st.records p,
                        index := aerase st.index uuid })
          else (some true, { st with index := aerase st.index uuid })
        | none => (some true, { st with index := aerase st.index uuid })
      else if entry.etype = sFolder then
        match (match entry.dir_path with
               | some d => some d
               | none =>
                 match entry.path with
                 | some p => some p.dropLast
                 | none => none) with
        | some d =>
          if d ∈ st.dirs then
            if ioFail then (none, st)
            else (some true,
              { removeTree st d with
                  index := aerase (removeTree st d).index uuid })
          else
            match entry.path with
            | some p =>
              if (alookup st.records p).isSome then
                if ioFail then (none, st)
                else (some true,
                  { st with records := aerase st.records p,
                            index := aerase st.index uuid })
              else (some true, { st with index := aerase st.index uuid })
            | none => (some true, { st with index := aerase st.index uuid })
        | none => (some true, { st with index := aerase st.index uuid })
      else (some true, { st with index := aerase st.index uuid })

/-- The state after the only item of `stA` is deleted. -/
def stAdel : FSState :=
  { base := [ "files".data, "mist".data], records := [], dirs := [],
    index := [] }

/-- C9 (code bug). Delete returns a boolean only on the paths that reach an
explicit `return`: on the concrete one-file state, the first delete succeeds
with `True` and removes storage and index entry, the second delete of the
same uuid fails with `False`; but when the storage removal raises an I/O
error, the bare `except` handler prints and falls off the end of the
function, returning `None` — not the boolean the claim (and the function's
own docstring and annotation) promise. -/
theorem delete_file_none_on_io_error :
    delete_file stA ( "u1".data) false = (some true, stAdel) ∧
    delete_file stAdel ( "u1".data) false = (some false, stAdel) ∧
    delete_file stA ( "u1".data) true = (none, stA) := by
  refine ⟨rfl, rfl, rfl⟩

/-- Record size constant of the adapter. -/
def CHUNK_SIZE : Nat := 14

/-- `PurePath.name`: the last path component ("" for the empty path). -/
def lastComp (p : PathC) : List Char := (p.getLast?).getD []

/-- `PurePath.relative_to(base)`: lexical containment; raises `ValueError`
(modelled as an error) when the base is not an initial segment. -/
def relative_to (p base : PathC) : Except Unit PathC :=
  if isPrefixB base p then .ok (p.drop base.length) else .error ()

/-- Loading one authoritative record in `get_ofsf` (fs_adapter.py lines
388-397): `ok none` when the path attribute is missing/empty, the file does
not exist, or the parsed value is not a 14-element list; on a well-shaped
record, field 2 is re-sanitized in place — a sanitization exception
propagates (error) and makes the caller skip the whole entry. -/
def loadChunks (st : FSState) (path? : Option PathC) :
    Except Unit (Option (List JVal)) :=
  match path? with
  | none => .ok none
  | some p =>
    match alookup st.records p with
    | none => .ok none
    | some l =>
      if l.length = CHUNK_SIZE then
        match sanitizeJVal (l.getD 2 .vNull) with
        | .error e' => .error e'
        | .ok s => .ok (some (l.set 2 (.vStr s)))
      else .ok none

/-- The 13-element fallback segment `get_ofsf` emits for a folder whose
record file is unavailable (fs_adapter.py lines 419-425): the folder
sentinel, name, parent path, nine blank payload fields, and the uuid as a
trailing extra field. -/
def mkFallbackSegment (folder_name parent_path uuid : List Char) : List JVal :=
  [.vStr sDotFolder, .vStr folder_name, .vStr parent_path,
   .vStr [], .vStr [], .vStr [], .vStr [], .vStr [], .vStr [], .vStr [],
   .vStr [], .vStr [],
   .vStr uuid]

/-- The `elif metadata_path and metadata_path.parent.exists()` arm of the
folder fallback (fs_adapter.py lines 414-417). -/
def fallbackElif (st : FSState) (e : IndexEntry)
    (folder_name parent_path : List Char) :
    Except Unit ((List Char) × (List Char)) :=
  match e.path with
  | some mp =>
    if mp.dropLast ∈ st.dirs then
      match relative_to mp.dropLast st.base with
      | .error e' => .error e'
      | .ok relp =>
        .ok ((if folder_name ≠ [] then folder_name else lastComp mp.dropLast),
          if parent_path ≠ [] then parent_path
          else if relp.dropLast = [] then [] else joinSlash relp.dropLast)
    else .ok (folder_name, parent_path)
  | none => .ok (folder_name, parent_path)

/-- Name and parent-path reconstruction of the folder fallback
(fs_adapter.py lines 407-417): when the recorded folder directory exists it
is made relative to the user base (an escape raises), with name and parent
derived from it wherever the index fields are empty; otherwise the parent
directory of the metadata file is consulted. -/
def fallbackNames (st : FSState) (e : IndexEntry)
    (folder_name parent_path : List Char) :
    Except Unit ((List Char) × (List Char)) :=
  match e.dir_path with
  | some fp =>
    if fp ∈ st.dirs then
      match relative_to fp st.base with
      | .error e' => .error e'
      | .ok rel =>
        .ok ((if rel ≠ [] then
                (if folder_name ≠ [] then folder_name else lastComp rel)
              else lastComp fp),
          if parent_path ≠ [] then parent_path
          else if rel.dropLast = [] then [] else joinSlash rel.dropLast)
    else fallbackElif st e folder_name parent_path
  | none => fallbackElif st e folder_name parent_path

/-- The folder fallback of `get_ofsf` (fs_adapter.py lines 404-425): start
from the index name, sanitize the index parent path (an exception skips the
entry), reconstruct names from recorded directories, and emit the fallback
segment. -/
def folderFallback (st : FSState) (uuid : List Char) (e : IndexEntry) :
    Except Unit (List JVal) :=
  match (if e.parent_path ≠ [] then sanitize_relative_path_str e.parent_path
         else .ok []) with
  | .error e' => .error e'
  | .ok pp0 =>
    match fallbackNames st e e.name pp0 with
    | .error e' => .error e'
    | .ok fnpp => .ok (mkFallbackSegment fnpp.1 fnpp.2 uuid)

/-- Processing of one index entry in the `get_ofsf` loop (fs_adapter.py
lines 385-437): load the authoritative record; a folder entry without one
takes the fallback; a non-folder entry without one re-reads the same file
(the source's redundant second load, lines 427-432, repeated verbatim on the
unchanged state) and contributes nothing if it is still unavailable.  An
error models a raised exception, which the enclosing try/except turns into
skipping the entry. -/
def processEntry (st : FSState) (uuid : List Char) (e : IndexEntry) :
    Except Unit (List JVal) :=
  match loadChunks st e.path with
  | .error e' => .error e'
  | .ok chunks? =>
    if e.etype = sFolder then
      match chunks? with
      | some c => .ok c
      | none => folderFallback st uuid e
    else
      match chunks? with
      | some c => .ok c
      | none =>
        match loadChunks st e.path with
        | .error e' => .error e'
        | .ok (some c) => .ok c
        | .ok none => .ok []

/-- `FSAdapter.get_ofsf` (fs_adapter.py lines 376-439) as the flat list of
emitted fields: each index entry contributes its record's fields, a folder
fallback segment, or nothing when it is skipped. -/
def get_ofsf (st : FSState) : List JVal :=
  (st.index.map (fun ue =>
    match processEntry st ue.1 ue.2 with
    | .ok l => l
    | .error _ => [])).flatten

theorem processEntry_wellformed (st : FSState) (u : List Char)
    (e : IndexEntry) (p : PathC) (l : List JVal) (s : List Char)
    (hp : e.path = some p) (hr : alookup st.records p = some l)
    (hlen : l.length = 14) (hs : sanitizeJVal (l.getD 2 .vNull) = .ok s) :
    processEntry st u e = .ok (l.set 2 (.vStr s)) := by
  unfold processEntry loadChunks
  rw [hp]
  dsimp only
  rw [hr]
  dsimp only
  rw [if_pos (by rw [hlen]; rfl), hs]
  dsimp only
  by_cases ht : e.etype = sFolder
  · rw [if_pos ht]
  · rw [if_neg ht]

/-- C7 (amended). Output length of list: when every index entry has a
present record file that parses as a 14-element list and whose parent-path
field (offset 2) re-sanitizes without error, `get_ofsf` emits exactly
14 * N fields for N index entries, each entry contributing its 14 fields in
index order.  (The sanitization proviso is forced by the counterexample
below: the source re-sanitizes field 2 on read, and a record whose field 2
no longer sanitizes is skipped entirely.) -/
theorem get_ofsf_length_14N (st : FSState)
    (h : ∀ ue ∈ st.index, ∃ p l s, (ue.2).path = some p ∧
      alookup st.records p = some l ∧ l.length = 14 ∧
      sanitizeJVal (l.getD 2 .vNull) = .ok s) :
    (get_ofsf st).length = 14 * st.index.length := by
  unfold get_ofsf
  suffices hgen : ∀ L : List ((List Char) × IndexEntry),
      (∀ ue ∈ L, ∃ p l s, (ue.2).path = some p ∧
        alookup st.records p = some l ∧ l.length = 14 ∧
        sanitizeJVal (l.getD 2 .vNull) = .ok s) →
      ((L.map (fun ue =>
        match processEntry st ue.1 ue.2 with
        | .ok l => l
        | .error _ => [])).flatten).length = 14 * L.length from hgen st.index h
  intro L
  induction L with
  | nil => intro _; rfl
  | cons ue rest ih =>
    intro hL
    rcases hL ue (List.mem_cons_self ue rest) with ⟨p, l, s, hp, hr, hlen, hs⟩
    have hrest := ih (fun x hx => hL x (List.mem_cons_of_mem ue hx))
    simp only [List.map_cons, List.flatten_cons]
    rw [processEntry_wellformed st ue.1 ue.2 p l s hp hr hlen hs]
    simp only [List.length_append, List.length_set, hlen, List.length_cons]
    omega

/-- Witness for C7: the concrete one-file state yields exactly 14 fields. -/
theorem get_ofsf_length_14N_witness :
    (get_ofsf stA).length = 14 * stA.index.length :=
  get_ofsf_length_14N stA (by
    intro ue hue
    have h1 : ue = ( "u1".data, entryA) := by
      simpa [stA] using hue
    subst h1
    exact ⟨pA, recA, [], rfl, rfl, rfl, rfl⟩)

/-- A record whose parent-path field contains "..": well-shaped but no
longer sanitizable. -/
def recBad : List JVal :=
  [.vStr ( ".txt".data), .vStr ( "b".data), .vStr ( "..".data), .vNull,
   .vNull, .vNull, .vNull, .vNull, .vNull, .vNull, .vNull, .vNull, .vNull,
   .vNull]

/-- A state whose single file entry points at `recBad`. -/
def stB : FSState :=
  { base := [ "files".data, "mist".data],
    records := [([ "files".data, "mist".data, "b.txt".data], recBad)],
    dirs := [],
    index := [( "u2".data,
      { etype := sFile,
        path := some [ "files".data, "mist".data, "b.txt".data],
        dir_path := none, name := "b.txt".data, parent_path := [] })] }

/-- Counterexample for C7 as stated: the index holds one entry whose record
file exists and parses as a 14-element list, yet `get_ofsf` emits 0 fields,
not 14 * 1 — re-sanitizing field 2 (here "..") raises and the entry is
skipped. -/
theorem get_ofsf_skips_unsanitizable_record :
    alookup stB.records [ "files".data, "mist".data, "b.txt".data] =
      some recBad ∧
    recBad.length = 14 ∧
    stB.index.length = 1 ∧
    (get_ofsf stB).length = 0 :=
  ⟨rfl, rfl, rfl, rfl⟩

/-- C8 (amended). Folder fallback segment: a folder entry whose record file
is unavailable contributes a reconstructed minimal segment of 13 elements —
the folder sentinel, a name, a parent path, nine blank payload fields, and
the uuid as an extra trailing field — provided reconstruction raises no
exception (the index parent path sanitizes, and any recorded directory that
exists lies under the user base); an entry whose reconstruction raises is
skipped and contributes nothing.  (The claim's 14-field-plus-uuid,
15-element shape is refuted by the counterexample below: the source emits
nine blank fields, not eleven.) -/
theorem folder_fallback_segment_shape (st : FSState) (u : List Char)
    (e : IndexEntry)
    (ht : e.etype = sFolder)
    (hmiss : loadChunks st e.path = .ok none)
    (hpar : e.parent_path = [] ∨
      ∃ s, sanitize_relative_path_str e.parent_path = .ok s)
    (hdir : ∀ fp, e.dir_path = some fp → fp ∈ st.dirs →
      isPrefixB st.base fp = true)
    (hmp : ∀ mp, e.path = some mp → mp.dropLast ∈ st.dirs →
      isPrefixB st.base mp.dropLast = true) :
    ∃ nm pp, processEntry st u e = .ok (mkFallbackSegment nm pp u) ∧
      (mkFallbackSegment nm pp u).length = 13 := by
  unfold processEntry
  rw [hmiss]
  dsimp only
  rw [if_pos ht]
  unfold folderFallback
  have hpp : ∃ pp0,
      (if e.parent_path ≠ [] then sanitize_relative_path_str e.parent_path
       else .ok []) = .ok pp0 := by
    rcases hpar with h0 | ⟨s, hs⟩
    · exact ⟨[], by rw [if_neg (by simp [h0])]⟩
    · by_cases hne : e.parent_path = []
      · exact ⟨[], by rw [if_neg (by simp [hne])]⟩
      · exact ⟨s, by rw [if_pos hne]; exact hs⟩
  rcases hpp with ⟨pp0, hpp⟩
  rw [hpp]
  dsimp only
  have helif : ∃ fnpp, fallbackElif st e e.name pp0 = .ok fnpp := by
    unfold fallbackElif
    cases hep : e.path with
    | none => exact ⟨_, rfl⟩
    | some mp =>
      dsimp only
      by_cases hmem : mp.dropLast ∈ st.dirs
      · rw [if_pos hmem]
        unfold relative_to
        rw [if_pos (hmp mp hep hmem)]
        exact ⟨_, rfl⟩
      · rw [if_neg hmem]
        exact ⟨_, rfl⟩
  have hnames : ∃ fnpp, fallbackNames st e e.name pp0 = .ok fnpp := by
    unfold fallbackNames
    cases hed : e.dir_path with
    | none => exact helif
    | some fp =>
      dsimp only
      by_cases hmem : fp ∈ st.dirs
      · rw [if_pos hmem]
        unfold relative_to
        rw [if_pos (hdir fp hed hmem)]
        exact ⟨_, rfl⟩
      · rw [if_neg hmem]
        exact helif
  rcases hnames with ⟨fnpp, hnames⟩
  rw [hnames]
  exact ⟨fnpp.1, fnpp.2, rfl, rfl⟩

/-- The directory of the fallback-witness folder. -/
def dF : PathC := [ "files".data, "mist".data, "N".data]

/-- A folder index entry whose record file is missing. -/
def entryF : IndexEntry :=
  { etype := sFolder, path := some (dF ++ [ ".folder.json".data]),
    dir_path := some dF, name := "N".data, parent_path := [] }

/-- A state containing only that folder entry, its directory present but its
metadata file gone. -/
def stF : FSState :=
  { base := [ "files".data, "mist".data], records := [], dirs := [dF],
    index := [( "u3".data, entryF)] }

/-- Counterexample for C8 as stated: on the concrete folder entry with a
missing record file, the fallback segment `get_ofsf` emits has 13 elements,
not the 15 (14-field record plus uuid) the claim asserts. -/
theorem folder_fallback_emits_13 :
    entryF.etype = sFolder ∧
    loadChunks stF entryF.path = .ok none ∧
    stF.index = [( "u3".data, entryF)] ∧
    (get_ofsf stF).length = 13 :=
  ⟨rfl, rfl, rfl, rfl⟩

/-- Witness for C8 (amended) on the concrete folder state: the fallback
segment is emitted and has 13 elements. -/
theorem folder_fallback_segment_shape_witness :
    ∃ nm pp, processEntry stF ( "u3".data) entryF =
        .ok (mkFallbackSegment nm pp ( "u3".data)) ∧
      (mkFallbackSegment nm pp ( "u3".data)).length = 13 :=
  folder_fallback_segment_shape stF ( "u3".data) entryF rfl rfl (Or.inl rfl)
    (by
      intro fp hfp hmem
      have : fp = dF := by
        have h1 : entryF.dir_path = some dF := rfl
        rw [h1] at hfp
        exact (Option.some.inj hfp).symm
      subst this
      rfl)
    (by
      intro mp hmp hmem
      have : mp = dF ++ [ ".folder.json".data] := by
        have h1 : entryF.path = some (dF ++ [ ".folder.json".data]) := rfl
        rw [h1] at hmp
        exact (Option.some.inj hmp).symm
      subst this
      rfl)

end OFSF
